import Mathlib

/-!
# Verification of the GridCAT event-table extractor (`Extract3.py`)

A shallow embedding of the computational core of `Extract3.py`:

* `data_to_event`   — the event segmenter (derivative thresholding with
  hysteresis), including its signal preprocessor
  `gaussian_filter(np.gradient(np.abs(angles), times), 2)`;
* `get_passive_data` — the timeline stitcher for passive trials;
* `get_ordered_conditions` — the condition ordering resolver;
* `append_to_txt`   — the event-line formatter.

Real-valued samples are modelled by `ℝ` (the Gaussian kernel weights are
transcendental); the stitcher, resolver and formatter, which only move
rational data around, are modelled over `ℚ` so they can be evaluated by
`decide`.  Python's `round(x, 4)` is modelled as exact rounding of
`x * 10^4` to the nearest integer (the spec accepts any consistent
tie-breaking policy; we use Mathlib's `round`, ties away from minus
infinity).  Fallible library calls (`np.gradient` on arrays that are too
short or of mismatched lengths raises `ValueError`) are modelled with
`Except`.
-/

namespace GridCAT

/-- `THRESHOLD_SPEED = 10` (degrees per second), `Extract3.py` line 50. -/
noncomputable def THRESHOLD_SPEED : ℝ := 10

/-- `THRESHOLD_DURATION = 0.5`, `Extract3.py` line 51. -/
noncomputable def THRESHOLD_DURATION : ℝ := 1 / 2

/-- Python's `round(x, 4)` (`DECIMALS = 4`, line 49): round `x * 10^4` to the
nearest integer and scale back.  Ties are resolved by a fixed consistent
policy (Mathlib's `round`). -/
noncomputable def round4 (x : ℝ) : ℝ := (round (x * 10 ^ 4) : ℤ) / 10 ^ 4

theorem round4_le (x : ℝ) : round4 x ≤ x + 1 / 2 / 10 ^ 4 := by
  have h := abs_sub_round (x * 10 ^ 4)
  rw [abs_sub_le_iff] at h
  have h1 : (round (x * 10 ^ 4) : ℝ) ≤ x * 10 ^ 4 + 1 / 2 := by linarith [h.2]
  rw [round4, div_le_iff (by norm_num : (0:ℝ) < 10 ^ 4)]
  calc (round (x * 10 ^ 4) : ℝ) ≤ x * 10 ^ 4 + 1 / 2 := h1
    _ = (x + 1 / 2 / 10 ^ 4) * 10 ^ 4 := by ring

theorem le_round4 (x : ℝ) : x - 1 / 2 / 10 ^ 4 ≤ round4 x := by
  have h := abs_sub_round (x * 10 ^ 4)
  rw [abs_sub_le_iff] at h
  have h1 : x * 10 ^ 4 - 1 / 2 ≤ (round (x * 10 ^ 4) : ℝ) := by linarith [h.1]
  rw [round4, le_div_iff (by norm_num : (0:ℝ) < 10 ^ 4)]
  calc (x - 1 / 2 / 10 ^ 4) * 10 ^ 4 = x * 10 ^ 4 - 1 / 2 := by ring
    _ ≤ (round (x * 10 ^ 4) : ℝ) := h1

theorem round4_nonneg {x : ℝ} (hx : 0 ≤ x) : 0 ≤ round4 x := by
  have h : (0:ℤ) ≤ round (x * 10 ^ 4) := by
    rw [round_eq]
    refine Int.floor_nonneg.mpr ?_
    nlinarith
  rw [round4]
  exact div_nonneg (by exact_mod_cast h) (by norm_num)

/-- Rounding is superadditive only up to one unit in the last place:
`round4 a + round4 b` can exceed `round4 (a + b)` by at most `1/10^4`. -/
theorem round4_add_le (a b : ℝ) :
    round4 a + round4 b - 1 / 10 ^ 4 ≤ round4 (a + b) := by
  have hA := abs_sub_round (a * 10 ^ 4)
  have hB := abs_sub_round (b * 10 ^ 4)
  rw [abs_sub_le_iff] at hA hB
  have hC : ((a + b) * 10 ^ 4 : ℝ) - 1 < round ((a + b) * 10 ^ 4) := by
    rw [round_eq]
    have := Int.sub_one_lt_floor ((a + b) * 10 ^ 4 + 1 / 2)
    linarith
  have hexp : ((a + b) * 10 ^ 4 : ℝ) = a * 10 ^ 4 + b * 10 ^ 4 := by ring
  rw [round4, round4, round4]
  set r1 : ℝ := ((round (a * 10 ^ 4) : ℤ) : ℝ) with hr1
  set r2 : ℝ := ((round (b * 10 ^ 4) : ℤ) : ℝ) with hr2
  set r3 : ℝ := ((round ((a + b) * 10 ^ 4) : ℤ) : ℝ) with hr3
  have hlt : r1 + r2 < r3 + 2 := by linarith [hA.2, hB.2]
  have key : round (a * 10 ^ 4) + round (b * 10 ^ 4) - 1 ≤ round ((a + b) * 10 ^ 4) := by
    rw [hr1, hr2, hr3] at hlt
    have h2 : round (a * 10 ^ 4) + round (b * 10 ^ 4) < round ((a + b) * 10 ^ 4) + 2 := by
      exact_mod_cast hlt
    omega
  have key' : r1 + r2 - 1 ≤ r3 := by
    rw [hr1, hr2, hr3]; exact_mod_cast key
  linarith [key']

/-- A gap of more than `1/2` survives rounding to 4 decimals. -/
theorem round4_lt_of_gap {a b : ℝ} (h : a + 1 / 2 < b) : round4 a < round4 b := by
  have h1 := round4_le a
  have h2 := le_round4 b
  linarith

/-! ## Signal preprocessor

`d_angles = gaussian_filter(np.gradient(np.abs(angles), times), SMOOTHNESS)`
(`Extract3.py` line 124, `SMOOTHNESS = 2`).

`np.gradient(f, x)` with a coordinate array `x` uses, at interior points, the
second-order non-uniform three-point stencil with coefficients
`a = -hd/(hs*(hs+hd))`, `b = (hd-hs)/(hs*hd)`, `c = hs/(hd*(hs+hd))`
(`hs = x[i]-x[i-1]`, `hd = x[i+1]-x[i]`), and first-order one-sided
differences at both ends (default `edge_order=1`).  It raises `ValueError`
when the array has fewer than two entries or when `len(x) ≠ len(f)`;
that check is modelled in `data_to_event` below. -/

/-- One entry of `np.gradient f x` for an array of length `n`. -/
noncomputable def gradAt (f x : List ℝ) (n i : ℕ) : ℝ :=
  if i = 0 then
    (f.getD 1 0 - f.getD 0 0) / (x.getD 1 0 - x.getD 0 0)
  else if i = n - 1 then
    (f.getD (n - 1) 0 - f.getD (n - 2) 0) / (x.getD (n - 1) 0 - x.getD (n - 2) 0)
  else
    let hs := x.getD i 0 - x.getD (i - 1) 0
    let hd := x.getD (i + 1) 0 - x.getD i 0
    (-hd / (hs * (hs + hd))) * f.getD (i - 1) 0
      + ((hd - hs) / (hs * hd)) * f.getD i 0
      + (hs / (hd * (hs + hd))) * f.getD (i + 1) 0

/-- `np.gradient f x` (length checks done by the caller). -/
noncomputable def npGradientRaw (f x : List ℝ) : List ℝ :=
  (List.range f.length).map (fun i => gradAt f x f.length i)

/-- Normalisation constant of the truncated Gaussian kernel used by
`scipy.ndimage.gaussian_filter(·, 2)`: `sigma = 2`, `truncate = 4.0`, so the
kernel half-width is `lw = int(4.0 * 2 + 0.5) = 8` and the raw weights are
`exp(-x²/(2·σ²)) = exp(-x²/8)` for `x = -8 … 8`, normalised to sum 1. -/
noncomputable def gaussNorm : ℝ :=
  ∑ j ∈ Finset.Icc (-8 : ℤ) 8, Real.exp (-(j : ℝ) ^ 2 / 8)

/-- Normalised Gaussian kernel weight at offset `k`. -/
noncomputable def gaussWeight (k : ℤ) : ℝ :=
  Real.exp (-(k : ℝ) ^ 2 / 8) / gaussNorm

/-- `scipy.ndimage` boundary mode `'reflect'` (the default):
`(d c b a | a b c d | d c b a)`, extended periodically with period `2n`. -/
def reflectIdx (n : ℕ) (j : ℤ) : ℕ :=
  let r := (j % (2 * (n : ℤ))).toNat
  if r < n then r else 2 * n - 1 - r

/-- `scipy.ndimage.gaussian_filter(g, 2)` on a 1-D array: correlation of the
reflect-extended input with the normalised truncated Gaussian kernel. -/
noncomputable def gaussianFilter (g : List ℝ) : List ℝ :=
  (List.range g.length).map (fun (i : ℕ) =>
    ∑ k ∈ Finset.Icc (-8 : ℤ) 8,
      gaussWeight k * g.getD (reflectIdx g.length ((i : ℕ) + k)) 0)

/-- The smoothed rate series `d_angles` of `Extract3.py` line 124. -/
noncomputable def rateSeries (times angles : List ℝ) : List ℝ :=
  gaussianFilter (npGradientRaw (angles.map (fun a => |a|)) times)

/-! ## Event segmenter (`data_to_event`, lines 119–159) -/

/-- The error signalled when a series that is empty, too short, or of
mismatched lengths reaches the segmenter (`np.gradient` raises
`ValueError` before any sample is read). -/
inductive SegError where
  | malformedSignal
deriving DecidableEq

/-- One produced event: `[condition, round(onset, 4), round(duration, 4),
prev_angle]` (`Extract3.py` lines 139–142). -/
structure Event where
  condition : String
  onset : ℝ
  duration : ℝ
  angle : ℝ

/-- The mutable loop state of `data_to_event`: the accumulating `container`,
the running `onset`, `prev_angle` and the hysteresis flag `at_zero`. -/
structure SegSt where
  container : List Event
  onset : ℝ
  prevAngle : ℝ
  atZero : Prop

open Classical in
/-- The `for i, (time, angle, d_angle) in enumerate(zip(times, angles,
d_angles))` loop of `data_to_event` (lines 133–147).  `n = len(times)`. -/
noncomputable def segLoop (condition : String) (n : ℕ) :
    ℕ → List ((ℝ × ℝ) × ℝ) → SegSt → SegSt
  | _, [], st => st
  | i, ((time, angle), dAngle) :: rest, st =>
    let duration := time - st.onset
    let st' :=
      if (THRESHOLD_SPEED < |dAngle| ∧ THRESHOLD_DURATION < duration ∧ st.atZero)
          ∨ i = n - 1 then
        { container := st.container ++
            [⟨condition, round4 st.onset, round4 duration, st.prevAngle⟩],
          onset := time,
          prevAngle := angle,
          atZero := |dAngle| < THRESHOLD_SPEED }
      else
        { st with prevAngle := angle, atZero := |dAngle| < THRESHOLD_SPEED }
    segLoop condition n (i + 1) rest st'

/-- `data_to_event(times, angles, condition)` (lines 119–159).  The unused
`start_time`/`passive` parameters of the Python signature are omitted.  The
`ValueError` raised by `np.gradient` on arrays of length `< 2` or of
mismatched lengths is modelled as `SegError.malformedSignal`. -/
noncomputable def data_to_event (times angles : List ℝ) (condition : String) :
    Except SegError (List Event) :=
  if angles.length < 2 ∨ times.length ≠ angles.length then
    .error .malformedSignal
  else
    .ok (segLoop condition times.length 0
          ((times.zip angles).zip (rateSeries times angles))
          { container := []
            onset := times.headD 0
            prevAngle := angles.headD 0
            atZero := |(rateSeries times angles).headD 0| < THRESHOLD_SPEED }).container

/-! ## Timeline stitcher (`get_passive_data`, lines 76–114)

File discovery and parsing of the raw trial recordings are external
collaborators; the stitcher proper is the `for params in parameters` loop,
modelled over the list of already-loaded `(more_times, more_angles)` trial
pairs.  `more_times[0]` / `more_times[-1]` on an empty recording would raise
`IndexError`, modelled as `StitchError.emptyTrial`. -/

/-- Error raised when a trial recording is empty. -/
inductive StitchError where
  | emptyTrial
deriving DecidableEq

/-- The stitching loop: `times.extend(more_times - more_times[0] +
start_time); angles.extend(more_angles); start_time += more_times[-1] -
more_times[0]` (lines 110–113), threading the accumulated composite arrays
and the running `start_time`. -/
def get_passive_data_aux :
    List (List ℚ × List ℚ) → List ℚ → List ℚ → ℚ →
      Except StitchError (List ℚ × List ℚ × ℚ)
  | [], times, angles, startTime => .ok (times, angles, startTime)
  | (moreTimes, moreAngles) :: rest, times, angles, startTime =>
    match moreTimes with
    | [] => .error .emptyTrial
    | t0 :: _ =>
      get_passive_data_aux rest
        (times ++ moreTimes.map (fun t => t - t0 + startTime))
        (angles ++ moreAngles)
        (startTime + (moreTimes.getLastD 0 - t0))

/-- `get_passive_data`: returns only the composite `(times, angles)` arrays
(line 114); the final `start_time` is a local variable of the Python
function. -/
def get_passive_data (trials : List (List ℚ × List ℚ)) (start_time : ℚ) :
    Except StitchError (List ℚ × List ℚ) :=
  (get_passive_data_aux trials [] [] start_time).map (fun r => (r.1, r.2.1))

/-! ## Condition ordering resolver (`get_ordered_conditions`, lines 196–207)

The `.mat` lookup is an external collaborator; the resolver proper is
`sorted(conditions, key=lambda x: group[x][0][0][0][0])`.  Python's `sorted`
is a stable ascending sort; any stable sort with respect to the same key
order produces the same output, so it is modelled by a stable insertion
sort over the declared `conditions` list. -/

/-- `conditions = ['LONG', 'SHORT', 'PASSIVE']` (line 46). -/
def conditions : List String := ["LONG", "SHORT", "PASSIVE"]

/-- `sorted(conditions, key=lambda x: …)` with the externally supplied
numeric rank of each condition. -/
def get_ordered_conditions (rank : String → ℚ) : List String :=
  conditions.insertionSort (fun a b => rank a ≤ rank b)

/-! ## Event-line formatter (`append_to_txt`, lines 164–176)

`efile.write(';'.join(map(str, e))); efile.write('\n')` per event `e`.
`str` on a Python float prints the shortest decimal representation that
round-trips; on values that are exact short decimals (as all
`round(x, 4)` outputs are) this is the minimal decimal form with trailing
zeros dropped and at least one digit after the point.  That printer is
modelled here for rationals admitting a finite decimal expansion. -/

/-- Decimal digit characters. -/
def digitChar : ℕ → Char
  | 0 => '0'
  | 1 => '1'
  | 2 => '2'
  | 3 => '3'
  | 4 => '4'
  | 5 => '5'
  | 6 => '6'
  | 7 => '7'
  | 8 => '8'
  | 9 => '9'
  | _ => '0'

/-- Fuelled digit expansion of a natural number (most significant first). -/
def natStrAux : ℕ → ℕ → List Char
  | 0, _ => []
  | fuel + 1, m =>
    if m < 10 then [digitChar m]
    else natStrAux fuel (m / 10) ++ [digitChar (m % 10)]

/-- Decimal digits of a natural number. -/
def natStr (m : ℕ) : List Char := natStrAux (m + 1) m

/-- Smallest exponent `k ≤ fuel` (searching upward from `start`) with
`d ∣ 10^k`, if any. -/
def decExpAux (d : ℕ) : ℕ → ℕ → Option ℕ
  | 0, _ => none
  | fuel + 1, k => if 10 ^ k % d = 0 then some k else decExpAux d fuel (k + 1)

/-- Smallest `k` with `d ∣ 10^k` (exists iff `d` has only factors 2 and 5). -/
def decExp (d : ℕ) : Option ℕ := decExpAux d (d + 1) 0

/-- Left-pad a digit string with zeros to width `k`. -/
def padZeros (k : ℕ) (s : List Char) : List Char :=
  List.replicate (k - s.length) '0' ++ s

/-- Drop trailing zeros but keep at least one digit (Python prints `2.0`,
not `2.`). -/
def stripFracZeros (s : List Char) : List Char :=
  let t := (s.reverse.dropWhile (fun c => c = '0')).reverse
  if t.isEmpty then ['0'] else t

/-- `str` of a non-negative float that is an exact finite decimal. -/
def pyFloatStrPos (q : ℚ) : List Char :=
  match decExp q.den with
  | some k =>
    let m := q.num.toNat * (10 ^ k / q.den)
    natStr (m / 10 ^ k) ++ ['.'] ++ stripFracZeros (padZeros k (natStr (m % 10 ^ k)))
  | none => natStr q.num.toNat ++ ['/'] ++ natStr q.den

/-- `str(x)` for a float `x` (floats are dyadic, hence finite decimals; the
`none` branch of `decExp` is unreachable for them). -/
def pyFloatStr (q : ℚ) : String :=
  if q < 0 then ⟨'-' :: pyFloatStrPos (-q)⟩ else ⟨pyFloatStrPos q⟩

/-- An event as written by `append_to_txt` (rational-valued fields). -/
structure QEvent where
  condition : String
  onset : ℚ
  duration : ℚ
  angle : ℚ

/-- The two `efile.write` calls of lines 174–175 for one event:
`';'.join(map(str, e))` followed by `'\n'`. -/
def eventLine (e : QEvent) : String :=
  e.condition ++ ";" ++ pyFloatStr e.onset ++ ";" ++ pyFloatStr e.duration
    ++ ";" ++ pyFloatStr e.angle ++ "\n"

/-- The text appended to the event file by the `for e in events` loop of
`append_to_txt` (lines 173–175). -/
def append_to_txt (events : List QEvent) : String :=
  events.foldl (fun acc e => acc ++ eventLine e) ""

/-! ## Basic facts about the segmenter input checks -/

/-- **C1**: a zero-length TimeSeries (empty times and angles) makes the
segmenter signal the malformed-signal error (`np.gradient` raises before
any element — in particular index 0 — of the series is read). -/
theorem data_to_event_empty_signals_error (condition : String) :
    data_to_event [] [] condition = .error .malformedSignal := by
  simp [data_to_event]

/-- **C3 (counterexample)**: on the single-sample input `times=[2.5]`,
`angles=[30.0]` the segmenter does *not* return the event
`(condition, 2.5000, 0.0000, 30.0)`; it errors out, because `np.gradient`
requires at least two samples. -/
theorem data_to_event_single_sample_counterexample :
    data_to_event [(5 / 2 : ℝ)] [(30 : ℝ)] "LONG" = .error .malformedSignal ∧
      ∀ evs : List Event, data_to_event [(5 / 2 : ℝ)] [(30 : ℝ)] "LONG" ≠ .ok evs := by
  refine ⟨by simp [data_to_event], ?_⟩
  intro evs h
  simp [data_to_event] at h

/-- **C3 (amended)**: for every single-sample input the segmenter signals
the malformed-signal error (the derivative computation needs two samples)
and produces no event record. -/
theorem data_to_event_single_sample (t a : ℝ) (condition : String) :
    data_to_event [t] [a] condition = .error .malformedSignal := by
  simp [data_to_event]

/-- **C2 (counterexample)**: a TimeSeries of length `n = 1` does not yield
at least one EventRecord — the segmenter errors instead. -/
theorem data_to_event_length_one_no_record :
    ¬ ∃ evs : List Event,
        data_to_event [(1 : ℝ)] [(5 : ℝ)] "SHORT" = .ok evs ∧ 1 ≤ evs.length := by
  rintro ⟨evs, h, -⟩
  simp [data_to_event] at h

/-! ## Structural lemmas about the segmentation loop -/

theorem getLastD_of_ne_nil {α : Type} : ∀ {l : List α}, l ≠ [] →
    ∀ d d' : α, l.getLastD d = l.getLastD d'
  | [], h, _, _ => absurd rfl h
  | a :: l, _, d, d' => by rw [List.getLastD_cons, List.getLastD_cons]

theorem segLoop_nil (condition : String) (n i : ℕ) (st : SegSt) :
    segLoop condition n i [] st = st := rfl

open Classical in
/-- One unfolding step of the segmentation loop. -/
theorem segLoop_cons (condition : String) (n i : ℕ) (time angle dAngle : ℝ)
    (rest : List ((ℝ × ℝ) × ℝ)) (st : SegSt) :
    segLoop condition n i (((time, angle), dAngle) :: rest) st =
      segLoop condition n (i + 1) rest
        (if (THRESHOLD_SPEED < |dAngle| ∧ THRESHOLD_DURATION < time - st.onset
              ∧ st.atZero) ∨ i = n - 1 then
          { container := st.container ++
              [⟨condition, round4 st.onset, round4 (time - st.onset), st.prevAngle⟩],
            onset := time, prevAngle := angle,
            atZero := |dAngle| < THRESHOLD_SPEED }
        else
          { st with prevAngle := angle, atZero := |dAngle| < THRESHOLD_SPEED }) := rfl

/-- Each loop iteration appends at most one event, and never removes one. -/
theorem segLoop_container_extension (condition : String) (n : ℕ) :
    ∀ (l : List ((ℝ × ℝ) × ℝ)) (i : ℕ) (st : SegSt),
      ∃ ext : List Event,
        (segLoop condition n i l st).container = st.container ++ ext ∧
          ext.length ≤ l.length := by
  intro l
  induction l with
  | nil =>
    intro i st
    exact ⟨[], by simp [segLoop], by simp⟩
  | cons x rest ih =>
    intro i st
    obtain ⟨⟨time, angle⟩, dAngle⟩ := x
    simp only [segLoop]
    by_cases hc : (THRESHOLD_SPEED < |dAngle| ∧ THRESHOLD_DURATION < time - st.onset
        ∧ st.atZero) ∨ i = n - 1
    · rw [if_pos hc]
      obtain ⟨ext, hext, hlen⟩ := ih (i + 1)
        { container := st.container ++
            [⟨condition, round4 st.onset, round4 (time - st.onset), st.prevAngle⟩],
          onset := time, prevAngle := angle, atZero := |dAngle| < THRESHOLD_SPEED }
      refine ⟨⟨condition, round4 st.onset, round4 (time - st.onset), st.prevAngle⟩ :: ext,
        ?_, ?_⟩
      · rw [hext]; simp
      · simpa using Nat.succ_le_succ hlen
    · rw [if_neg hc]
      obtain ⟨ext, hext, hlen⟩ := ih (i + 1)
        { st with prevAngle := angle, atZero := |dAngle| < THRESHOLD_SPEED }
      exact ⟨ext, by simpa using hext, by simp; omega⟩

theorem dropLast_cons_cons {α : Type} (a b : α) (l : List α) :
    (a :: b :: l).dropLast = a :: (b :: l).dropLast := rfl

/-- Forced flush: a run that contains the final index `n - 1` ends its
container with an event whose raw duration closes at the run's last
timestamp and whose angle is the penultimate angle of the run. -/
theorem segLoop_last_flush (condition : String) (n : ℕ) :
    ∀ (l : List ((ℝ × ℝ) × ℝ)) (i : ℕ) (st : SegSt), l ≠ [] → i + l.length = n →
      ∃ (o : ℝ) (pre : List Event),
        (segLoop condition n i l st).container =
          pre ++ [⟨condition, round4 o,
                   round4 ((l.map (fun y => y.1.1)).getLastD 0 - o),
                   ((l.map (fun y => y.1.2)).dropLast).getLastD st.prevAngle⟩] := by
  intro l
  induction l with
  | nil => intro i st h; exact absurd rfl h
  | cons x rest ih =>
    intro i st _ hn
    obtain ⟨⟨time, angle⟩, dAngle⟩ := x
    cases rest with
    | nil =>
      have hi : i = n - 1 := by simp at hn; omega
      simp only [segLoop]
      rw [if_pos (Or.inr hi)]
      exact ⟨st.onset, st.container, by simp [segLoop]⟩
    | cons y rs =>
      have hne : (y :: rs : List ((ℝ × ℝ) × ℝ)) ≠ [] := by simp
      have hn' : (i + 1) + (y :: rs).length = n := by simp at hn ⊢; omega
      have htime : ((((time, angle), dAngle) :: y :: rs).map
            (fun z => z.1.1)).getLastD 0
          = ((y :: rs).map (fun z => z.1.1)).getLastD 0 := by
        rw [List.map_cons, List.getLastD_cons]
        exact getLastD_of_ne_nil (by simp) time 0
      have hang : ∀ p : ℝ, ((((time, angle), dAngle) :: y :: rs).map
            (fun z => z.1.2)).dropLast.getLastD p
          = (((y :: rs).map (fun z => z.1.2)).dropLast).getLastD angle := by
        intro p
        rw [List.map_cons, List.map_cons, dropLast_cons_cons, List.getLastD_cons]
      rw [segLoop_cons]
      by_cases hc : (THRESHOLD_SPEED < |dAngle| ∧ THRESHOLD_DURATION < time - st.onset
          ∧ st.atZero) ∨ i = n - 1
      · rw [if_pos hc]
        obtain ⟨o, pre, heq⟩ := ih (i + 1)
          { container := st.container ++
              [⟨condition, round4 st.onset, round4 (time - st.onset), st.prevAngle⟩],
            onset := time, prevAngle := angle, atZero := |dAngle| < THRESHOLD_SPEED }
          hne hn'
        refine ⟨o, pre, ?_⟩
        rw [heq, htime, hang st.prevAngle]
      · rw [if_neg hc]
        obtain ⟨o, pre, heq⟩ := ih (i + 1)
          { st with prevAngle := angle, atZero := |dAngle| < THRESHOLD_SPEED }
          hne hn'
        refine ⟨o, pre, ?_⟩
        rw [heq, htime, hang st.prevAngle]

/-- A run in which no sample's smoothed rate exceeds the threshold emits
only at the final forced flush: exactly one event, opened at the incoming
onset and closed at the run's last timestamp. -/
theorem segLoop_quiet (condition : String) (n : ℕ) :
    ∀ (l : List ((ℝ × ℝ) × ℝ)) (i : ℕ) (st : SegSt), l ≠ [] → i + l.length = n →
      (∀ y ∈ l, |y.2| ≤ THRESHOLD_SPEED) →
      (segLoop condition n i l st).container =
        st.container ++
          [⟨condition, round4 st.onset,
            round4 ((l.map (fun y => y.1.1)).getLastD 0 - st.onset),
            ((l.map (fun y => y.1.2)).dropLast).getLastD st.prevAngle⟩] := by
  intro l
  induction l with
  | nil => intro i st h; exact absurd rfl h
  | cons x rest ih =>
    intro i st _ hn hq
    obtain ⟨⟨time, angle⟩, dAngle⟩ := x
    cases rest with
    | nil =>
      have hi : i = n - 1 := by simp at hn; omega
      rw [segLoop_cons, if_pos (Or.inr hi), segLoop_nil]
      simp
    | cons y rs =>
      have hne : (y :: rs : List ((ℝ × ℝ) × ℝ)) ≠ [] := by simp
      have hn' : (i + 1) + (y :: rs).length = n := by simp at hn ⊢; omega
      have hnc : ¬ ((THRESHOLD_SPEED < |dAngle| ∧ THRESHOLD_DURATION < time - st.onset
          ∧ st.atZero) ∨ i = n - 1) := by
        rintro (⟨hfast, -, -⟩ | hlast)
        · exact absurd hfast (not_lt.mpr (hq (((time, angle), dAngle)) (by simp)))
        · simp at hn; omega
      have htime : ((((time, angle), dAngle) :: y :: rs).map
            (fun z => z.1.1)).getLastD 0
          = ((y :: rs).map (fun z => z.1.1)).getLastD 0 := by
        rw [List.map_cons, List.getLastD_cons]
        exact getLastD_of_ne_nil (by simp) time 0
      have hang : ∀ p : ℝ, ((((time, angle), dAngle) :: y :: rs).map
            (fun z => z.1.2)).dropLast.getLastD p
          = (((y :: rs).map (fun z => z.1.2)).dropLast).getLastD angle := by
        intro p
        rw [List.map_cons, List.map_cons, dropLast_cons_cons, List.getLastD_cons]
      rw [segLoop_cons, if_neg hnc]
      rw [ih (i + 1) _ hne hn' (fun z hz => hq z (List.mem_cons_of_mem _ hz))]
      rw [htime, hang st.prevAngle]

theorem gaussianFilter_length (g : List ℝ) : (gaussianFilter g).length = g.length := by
  rw [gaussianFilter, List.length_map, List.length_range]

theorem rateSeries_length (times angles : List ℝ) :
    (rateSeries times angles).length = angles.length := by
  rw [rateSeries, gaussianFilter_length, npGradientRaw, List.length_map,
    List.length_range, List.length_map]

theorem zip3_map_time : ∀ (ts angs ds : List ℝ), angs.length = ts.length →
    ds.length = ts.length → ((ts.zip angs).zip ds).map (fun y => y.1.1) = ts
  | [], _, _, _, _ => by simp
  | t :: ts, [], _, h1, _ => by simp at h1
  | t :: ts, a :: angs, [], _, h2 => by simp at h2
  | t :: ts, a :: angs, d :: ds, h1, h2 => by
    simp only [List.zip_cons_cons, List.map_cons]
    rw [zip3_map_time ts angs ds (by simpa using h1) (by simpa using h2)]

theorem zip3_map_angle : ∀ (ts angs ds : List ℝ), angs.length = ts.length →
    ds.length = ts.length → ((ts.zip angs).zip ds).map (fun y => y.1.2) = angs
  | [], angs, _, h1, _ => by
    have h : angs = [] := List.length_eq_zero.mp (by simpa using h1)
    simp [h]
  | t :: ts, [], _, h1, _ => by simp at h1
  | t :: ts, a :: angs, [], _, h2 => by simp at h2
  | t :: ts, a :: angs, d :: ds, h1, h2 => by
    simp only [List.zip_cons_cons, List.map_cons]
    rw [zip3_map_angle ts angs ds (by simpa using h1) (by simpa using h2)]

theorem zip3_length (ts angs ds : List ℝ) (h1 : angs.length = ts.length)
    (h2 : ds.length = ts.length) : ((ts.zip angs).zip ds).length = ts.length := by
  simp [h1, h2]

theorem zip3_snd_mem (ts angs ds : List ℝ) :
    ∀ y ∈ (ts.zip angs).zip ds, y.2 ∈ ds := by
  intro y hy
  obtain ⟨p, d⟩ := y
  exact (List.of_mem_zip hy).2

/-- Unfolding of `data_to_event` on well-formed input. -/
theorem data_to_event_ok (times angles : List ℝ) (condition : String)
    (h2 : 2 ≤ angles.length) (hlen : times.length = angles.length) :
    data_to_event times angles condition =
      .ok (segLoop condition times.length 0
            ((times.zip angles).zip (rateSeries times angles))
            { container := []
              onset := times.headD 0
              prevAngle := angles.headD 0
              atZero := |(rateSeries times angles).headD 0|
                < THRESHOLD_SPEED }).container := by
  rw [data_to_event, if_neg]
  push_neg
  exact ⟨by omega, hlen⟩

theorem getLastD_concat {α : Type} (x d : α) : ∀ (l : List α), (l ++ [x]).getLastD d = x
  | [] => rfl
  | a :: l => by rw [List.cons_append, List.getLastD_cons, getLastD_concat x a l]

theorem dropLast_getLastD_eq_getD : ∀ (l : List ℝ) (d : ℝ), 2 ≤ l.length →
    l.dropLast.getLastD d = l.getD (l.length - 2) 0
  | [], _, h => by simp at h
  | [a], _, h => by simp at h
  | [a, b], d, _ => rfl
  | a :: b :: c :: t, d, _ => by
    have ih := dropLast_getLastD_eq_getD (b :: c :: t) a (by simp)
    rw [dropLast_cons_cons, List.getLastD_cons, ih]
    have hl : (a :: b :: c :: t).length - 2 = ((b :: c :: t).length - 2) + 1 := by
      simp
    rw [hl, List.getD_cons_succ]

/-- **C10**: on any well-formed series of length `n ≥ 2` with non-decreasing
times, the segmenter emits at most one record per loop index (so at most `n`
records in total), and the last record — produced by the forced flush —
carries the penultimate angle `angles[n-2]` and closes exactly at the final
timestamp: it equals `(condition, round4 o, round4 (times[n-1] - o), angles[n-2])`
for some raw onset `o`, so its unrounded onset plus unrounded duration is
`times[n-1]`. -/
theorem data_to_event_last_record (times angles : List ℝ) (condition : String)
    (h2 : 2 ≤ times.length) (hlen : angles.length = times.length)
    (hmono : times.Chain' (· ≤ ·)) :
    ∃ evs : List Event, data_to_event times angles condition = .ok evs ∧
      1 ≤ evs.length ∧ evs.length ≤ times.length ∧
      ∃ o : ℝ, evs.getLastD ⟨condition, 0, 0, 0⟩ =
        ⟨condition, round4 o, round4 (times.getLastD 0 - o),
         angles.getD (angles.length - 2) 0⟩ := by
  have hrl : (rateSeries times angles).length = times.length := by
    rw [rateSeries_length, hlen]
  have hmt : ((times.zip angles).zip (rateSeries times angles)).map
      (fun y => y.1.1) = times := zip3_map_time _ _ _ hlen hrl
  have hma : ((times.zip angles).zip (rateSeries times angles)).map
      (fun y => y.1.2) = angles := zip3_map_angle _ _ _ hlen hrl
  have hll : ((times.zip angles).zip (rateSeries times angles)).length
      = times.length := zip3_length _ _ _ hlen hrl
  have hne : ((times.zip angles).zip (rateSeries times angles)) ≠ [] := by
    intro h
    rw [h] at hll
    simp at hll
    omega
  rw [data_to_event_ok times angles condition (by omega) hlen.symm]
  obtain ⟨o, pre, heq⟩ := segLoop_last_flush condition times.length
    ((times.zip angles).zip (rateSeries times angles)) 0
    { container := [], onset := times.headD 0, prevAngle := angles.headD 0,
      atZero := |(rateSeries times angles).headD 0| < THRESHOLD_SPEED }
    hne (by rw [hll]; omega)
  obtain ⟨ext, hext, hlen2⟩ := segLoop_container_extension condition times.length
    ((times.zip angles).zip (rateSeries times angles)) 0
    { container := [], onset := times.headD 0, prevAngle := angles.headD 0,
      atZero := |(rateSeries times angles).headD 0| < THRESHOLD_SPEED }
  refine ⟨_, rfl, ?_, ?_, o, ?_⟩
  · rw [heq]
    simp
  · rw [hext]
    simpa using hlen2.trans (le_of_eq hll)
  · rw [heq, getLastD_concat, hmt, hma]
    rw [dropLast_getLastD_eq_getD angles (angles.headD 0) (by omega)]

/-- **C2 (amended)**: for every TimeSeries of length `n ≥ 2` (with matching
angles), the segmenter succeeds and returns at least one EventRecord (the
final forced flush).  For `n = 1` the code instead raises in `np.gradient`
(see the counterexample), so the spec's `n ≥ 1` bound must be `n ≥ 2`. -/
theorem data_to_event_produces_record (times angles : List ℝ) (condition : String)
    (h2 : 2 ≤ times.length) (hlen : angles.length = times.length) :
    ∃ evs : List Event, data_to_event times angles condition = .ok evs ∧
      1 ≤ evs.length := by
  have hrl : (rateSeries times angles).length = times.length := by
    rw [rateSeries_length, hlen]
  have hll : ((times.zip angles).zip (rateSeries times angles)).length
      = times.length := zip3_length _ _ _ hlen hrl
  have hne : ((times.zip angles).zip (rateSeries times angles)) ≠ [] := by
    intro h
    rw [h] at hll
    simp at hll
    omega
  rw [data_to_event_ok times angles condition (by omega) hlen.symm]
  obtain ⟨o, pre, heq⟩ := segLoop_last_flush condition times.length
    ((times.zip angles).zip (rateSeries times angles)) 0
    { container := [], onset := times.headD 0, prevAngle := angles.headD 0,
      atZero := |(rateSeries times angles).headD 0| < THRESHOLD_SPEED }
    hne (by rw [hll]; omega)
  refine ⟨_, rfl, ?_⟩
  rw [heq]
  simp

/-- **C6**: a series of length `n ≥ 2` whose smoothed derivative magnitude
never exceeds `THRESHOLD_SPEED` produces exactly one EventRecord spanning
the full series: onset `round4 times[0]`, duration
`round4 (times[n-1] - times[0])`, and angle `angles[n-2]` — the sample
immediately preceding the final forced flush. -/
theorem data_to_event_quiescent (times angles : List ℝ) (condition : String)
    (h2 : 2 ≤ times.length) (hlen : angles.length = times.length)
    (hq : ∀ d ∈ rateSeries times angles, |d| ≤ THRESHOLD_SPEED) :
    data_to_event times angles condition =
      .ok [⟨condition, round4 (times.headD 0),
            round4 (times.getLastD 0 - times.headD 0),
            angles.getD (angles.length - 2) 0⟩] := by
  have hrl : (rateSeries times angles).length = times.length := by
    rw [rateSeries_length, hlen]
  have hmt : ((times.zip angles).zip (rateSeries times angles)).map
      (fun y => y.1.1) = times := zip3_map_time _ _ _ hlen hrl
  have hma : ((times.zip angles).zip (rateSeries times angles)).map
      (fun y => y.1.2) = angles := zip3_map_angle _ _ _ hlen hrl
  have hll : ((times.zip angles).zip (rateSeries times angles)).length
      = times.length := zip3_length _ _ _ hlen hrl
  have hne : ((times.zip angles).zip (rateSeries times angles)) ≠ [] := by
    intro h
    rw [h] at hll
    simp at hll
    omega
  rw [data_to_event_ok times angles condition (by omega) hlen.symm]
  rw [segLoop_quiet condition times.length
    ((times.zip angles).zip (rateSeries times angles)) 0
    { container := [], onset := times.headD 0, prevAngle := angles.headD 0,
      atZero := |(rateSeries times angles).headD 0| < THRESHOLD_SPEED }
    hne (by rw [hll]; omega)
    (fun y hy => hq y.2 (zip3_snd_mem _ _ _ y hy))]
  rw [hmt, hma]
  rw [dropLast_getLastD_eq_getD angles (angles.headD 0) (by omega)]
  simp
theorem range_three : List.range 3 = [0, 1, 2] := by decide

theorem getD_zero3 (i : ℕ) : ([0, 0, 0] : List ℝ).getD i 0 = 0 := by
  match i with
  | 0 => rfl
  | 1 => rfl
  | 2 => rfl
  | n + 3 => exact List.getD_eq_default _ _ (by simp)

theorem map_abs_five : ([(5:ℝ), 5, 5]).map (fun a => |a|) = [5, 5, 5] := by
  norm_num

theorem grad_const : npGradientRaw [(5:ℝ), 5, 5] [(0:ℝ), 1, 2] = [0, 0, 0] := by
  rw [npGradientRaw]
  norm_num [range_three, gradAt, List.getD]

theorem filter_zero3 : gaussianFilter [(0:ℝ), 0, 0] = [0, 0, 0] := by
  have h : ∀ i : ℕ,
      (∑ k ∈ Finset.Icc (-8 : ℤ) 8,
        gaussWeight k * ([(0:ℝ), 0, 0]).getD (reflectIdx 3 ((i : ℕ) + k)) 0) = 0 :=
    fun i => Finset.sum_eq_zero (fun k _ => by rw [getD_zero3, mul_zero])
  rw [gaussianFilter]
  rw [show ([(0:ℝ), 0, 0]).length = 3 from rfl, range_three]
  simp only [List.map_cons, List.map_nil]
  rw [h 0, h 1, h 2]

theorem rateSeries_const : rateSeries [(0:ℝ), 1, 2] [(5:ℝ), 5, 5] = [0, 0, 0] := by
  rw [rateSeries, map_abs_five, grad_const, filter_zero3]

theorem data_to_event_produces_record_witness :
    2 ≤ ([(0:ℝ), 1, 2]).length ∧ ([(5:ℝ), 5, 5]).length = ([(0:ℝ), 1, 2]).length ∧
      ∃ evs : List Event,
        data_to_event [(0:ℝ), 1, 2] [(5:ℝ), 5, 5] "LONG" = .ok evs ∧ 1 ≤ evs.length :=
  ⟨by norm_num, by norm_num,
    data_to_event_produces_record [(0:ℝ), 1, 2] [(5:ℝ), 5, 5] "LONG"
      (by norm_num) (by norm_num)⟩

theorem data_to_event_quiescent_witness :
    (2 ≤ ([(0:ℝ), 1, 2]).length ∧ ([(5:ℝ), 5, 5]).length = ([(0:ℝ), 1, 2]).length ∧
      ∀ d ∈ rateSeries [(0:ℝ), 1, 2] [(5:ℝ), 5, 5], |d| ≤ THRESHOLD_SPEED) ∧
      data_to_event [(0:ℝ), 1, 2] [(5:ℝ), 5, 5] "PASSIVE" =
        .ok [⟨"PASSIVE", round4 (([(0:ℝ), 1, 2]).headD 0),
              round4 (([(0:ℝ), 1, 2]).getLastD 0 - ([(0:ℝ), 1, 2]).headD 0),
              ([(5:ℝ), 5, 5]).getD (([(5:ℝ), 5, 5]).length - 2) 0⟩] := by
  have hq : ∀ d ∈ rateSeries [(0:ℝ), 1, 2] [(5:ℝ), 5, 5], |d| ≤ THRESHOLD_SPEED := by
    rw [rateSeries_const]
    intro d hd
    rw [THRESHOLD_SPEED]
    simp at hd
    rw [hd]
    norm_num
  exact ⟨⟨by norm_num, by norm_num, hq⟩,
    data_to_event_quiescent [(0:ℝ), 1, 2] [(5:ℝ), 5, 5] "PASSIVE"
      (by norm_num) (by norm_num) hq⟩

theorem data_to_event_last_record_witness :
    (2 ≤ ([(0:ℝ), 1, 3]).length ∧ ([(7:ℝ), 7, 7]).length = ([(0:ℝ), 1, 3]).length ∧
      List.Chain' (· ≤ ·) [(0:ℝ), 1, 3]) ∧
      ∃ evs : List Event, data_to_event [(0:ℝ), 1, 3] [(7:ℝ), 7, 7] "SHORT" = .ok evs ∧
        1 ≤ evs.length ∧ evs.length ≤ ([(0:ℝ), 1, 3]).length ∧
        ∃ o : ℝ, evs.getLastD ⟨"SHORT", 0, 0, 0⟩ =
          ⟨"SHORT", round4 o, round4 (([(0:ℝ), 1, 3]).getLastD 0 - o),
           ([(7:ℝ), 7, 7]).getD (([(7:ℝ), 7, 7]).length - 2) 0⟩ := by
  have hmono : List.Chain' (· ≤ ·) [(0:ℝ), 1, 3] := by
    norm_num [List.chain'_cons]
  exact ⟨⟨by norm_num, by norm_num, hmono⟩,
    data_to_event_last_record [(0:ℝ), 1, 3] [(7:ℝ), 7, 7] "SHORT"
      (by norm_num) (by norm_num) hmono⟩

/-! ## Timeline stitcher: claims C4 and C5 -/

theorem get_passive_data_aux_cons (t0 : ℚ) (mt ma : List ℚ)
    (rest : List (List ℚ × List ℚ)) (ts angs : List ℚ) (s : ℚ) :
    get_passive_data_aux ((t0 :: mt, ma) :: rest) ts angs s =
      get_passive_data_aux rest
        (ts ++ (t0 :: mt).map (fun t => t - t0 + s))
        (angs ++ ma)
        (s + ((t0 :: mt).getLastD 0 - t0)) := rfl

theorem mem_of_getLast? {α : Type} : ∀ {l : List α} {a : α}, l.getLast? = some a → a ∈ l
  | [], a, h => by simp at h
  | [b], a, h => by
    simp at h
    simp [h]
  | b :: c :: t, a, h => by
    rw [List.getLast?_cons_cons] at h
    exact List.mem_cons_of_mem _ (mem_of_getLast? h)

theorem sorted_le_getLastD : ∀ (l : List ℚ), l.Chain' (· ≤ ·) →
    ∀ y ∈ l, y ≤ l.getLastD 0
  | [], _, y, hy => absurd hy (by simp)
  | [a], _, y, hy => by
    simp at hy
    subst hy
    rw [List.getLastD_cons]
    exact le_refl _
  | a :: b :: t, hc, y, hy => by
    rw [List.getLastD_cons, getLastD_of_ne_nil (by simp) a 0]
    have hab : a ≤ b := (List.chain'_cons.mp hc).1
    have hc' : (b :: t).Chain' (· ≤ ·) := (List.chain'_cons.mp hc).2
    rcases List.mem_cons.mp hy with rfl | hy'
    · exact le_trans hab (sorted_le_getLastD (b :: t) hc' b (by simp))
    · exact sorted_le_getLastD (b :: t) hc' y hy'

/-- Invariant of the stitching loop: if every trial is non-empty with
non-decreasing times, the accumulated composite stays non-decreasing and
bounded by the running `start_time`. -/
theorem get_passive_data_aux_sorted :
    ∀ (trials : List (List ℚ × List ℚ)) (ts angs : List ℚ) (s : ℚ),
      (∀ tr ∈ trials, tr.1 ≠ [] ∧ tr.1.Chain' (· ≤ ·)) →
      ts.Chain' (· ≤ ·) → (∀ x ∈ ts, x ≤ s) →
      ∃ res : List ℚ × List ℚ × ℚ,
        get_passive_data_aux trials ts angs s = .ok res ∧
          res.1.Chain' (· ≤ ·) ∧ ∀ x ∈ res.1, x ≤ res.2.2 := by
  intro trials
  induction trials with
  | nil =>
    intro ts angs s _ hts hbound
    exact ⟨(ts, angs, s), rfl, hts, hbound⟩
  | cons tr rest ih =>
    intro ts angs s htr hts hbound
    obtain ⟨mt, ma⟩ := tr
    obtain ⟨hne, hmt⟩ := htr (mt, ma) (by simp)
    cases mt with
    | nil => exact absurd rfl hne
    | cons t0 mt' =>
      rw [get_passive_data_aux_cons]
      have hlast := sorted_le_getLastD (t0 :: mt') hmt
      have hchain : (ts ++ (t0 :: mt').map (fun t => t - t0 + s)).Chain' (· ≤ ·) := by
        rw [List.chain'_append]
        refine ⟨hts, ?_, ?_⟩
        · rw [List.chain'_map]
          exact hmt.imp (fun a b h => by linarith)
        · intro x hx y hy
          have hx' : x ≤ s := hbound x (mem_of_getLast? hx)
          have hy' : s = y := by simpa using hy
          rw [← hy']
          linarith
      have hbound' : ∀ x ∈ ts ++ (t0 :: mt').map (fun t => t - t0 + s),
          x ≤ s + ((t0 :: mt').getLastD 0 - t0) := by
        intro x hx
        have ht0 : t0 ≤ (t0 :: mt').getLastD 0 := hlast t0 (by simp)
        rcases List.mem_append.mp hx with hx' | hx'
        · have := hbound x hx'
          linarith
        · obtain ⟨y, hy, rfl⟩ := List.mem_map.mp hx'
          have := hlast y hy
          linarith
      exact ih _ _ _ (fun z hz => htr z (List.mem_cons_of_mem _ hz)) hchain hbound'

/-- **C5**: for every ordered sequence of non-empty trials whose own time
sequences are non-decreasing, the composite time sequence produced by the
stitcher is non-decreasing across the whole concatenation. -/
theorem get_passive_data_monotone (trials : List (List ℚ × List ℚ)) (s : ℚ)
    (htr : ∀ tr ∈ trials, tr.1 ≠ [] ∧ tr.1.Chain' (· ≤ ·)) :
    ∃ res : List ℚ × List ℚ, get_passive_data trials s = .ok res ∧
      res.1.Chain' (· ≤ ·) := by
  obtain ⟨r, hr, hchain, -⟩ := get_passive_data_aux_sorted trials [] [] s htr
    (by simp) (by simp)
  exact ⟨(r.1, r.2.1), by rw [get_passive_data, hr]; rfl, hchain⟩

theorem get_passive_data_monotone_witness :
    (∀ tr ∈ [([(1:ℚ), 2], [(10:ℚ), 20]), ([(0:ℚ), 1/2], [(30:ℚ), 40])],
      tr.1 ≠ [] ∧ tr.1.Chain' (· ≤ ·)) ∧
    ∃ res : List ℚ × List ℚ,
      get_passive_data [([(1:ℚ), 2], [(10:ℚ), 20]), ([(0:ℚ), 1/2], [(30:ℚ), 40])] 0
        = .ok res ∧ res.1.Chain' (· ≤ ·) := by
  have h : ∀ tr ∈ [([(1:ℚ), 2], [(10:ℚ), 20]), ([(0:ℚ), 1/2], [(30:ℚ), 40])],
      tr.1 ≠ [] ∧ tr.1.Chain' (· ≤ ·) := by
    intro tr htr
    simp only [List.mem_cons, List.mem_singleton, List.not_mem_nil, or_false] at htr
    rcases htr with h1 | h1 <;> rw [h1] <;>
      exact ⟨by simp, by norm_num [List.chain'_cons]⟩
  exact ⟨h, get_passive_data_monotone _ 0 h⟩

/-- **C4**: on the ordered trials A (`times=[10,10.5,11]`, `angles=[1,2,3]`)
and B (`times=[5,5.2,5.4]`, `angles=[4,5,6]`) with `start_time = 0`, the
stitching loop produces the composite `times=[0,0.5,1,1,1.2,1.4]` and
`angles=[1,2,3,4,5,6]` and leaves the running `start_time` at `1.4`
(`get_passive_data` itself returns the two composite arrays); in general a
trial contributes `adjustedTimes = trialTimes - t0 + startTime` and advances
`startTime` by its own elapsed span `trialTimes[-1] - trialTimes[0]`. -/
theorem get_passive_data_stitches :
    (get_passive_data_aux
        [([10, 21/2, 11], [1, 2, 3]), ([5, 26/5, 27/5], [4, 5, 6])] [] [] 0
        = .ok ([0, 1/2, 1, 1, 6/5, 7/5], [1, 2, 3, 4, 5, 6], 7/5) ∧
      get_passive_data
        [([10, 21/2, 11], [1, 2, 3]), ([5, 26/5, 27/5], [4, 5, 6])] 0
        = .ok ([0, 1/2, 1, 1, 6/5, 7/5], [1, 2, 3, 4, 5, 6])) ∧
    ∀ (t0 : ℚ) (mt ma ts angs : List ℚ) (s : ℚ),
      get_passive_data_aux [(t0 :: mt, ma)] ts angs s =
        .ok (ts ++ (t0 :: mt).map (fun t => t - t0 + s), angs ++ ma,
             s + ((t0 :: mt).getLastD 0 - t0)) := by
  refine ⟨⟨?_, ?_⟩, fun t0 mt ma ts angs s => rfl⟩
  · rw [get_passive_data_aux_cons, get_passive_data_aux_cons]
    norm_num [get_passive_data_aux, List.getLastD]
  · rw [get_passive_data]
    rw [get_passive_data_aux_cons, get_passive_data_aux_cons]
    norm_num [get_passive_data_aux, List.getLastD]
    rfl

/-! ## Condition ordering resolver: claim C8 -/

/-- **C8**: the resolver returns the condition labels sorted ascending by
their numeric rank — ranks `{LONG:2, SHORT:1, PASSIVE:3}` yield
`[SHORT, LONG, PASSIVE]` — and equal ranks keep the default declared order
`[LONG, SHORT, PASSIVE]` as a stable tie-break (ranks `{LONG:1, SHORT:1,
PASSIVE:0}` yield `[PASSIVE, LONG, SHORT]`); in general the result is a
permutation of the declared conditions that is sorted by rank. -/
theorem get_ordered_conditions_sorts :
    get_ordered_conditions
        (fun c => if c = "LONG" then 2 else if c = "SHORT" then 1 else 3)
      = ["SHORT", "LONG", "PASSIVE"] ∧
    get_ordered_conditions
        (fun c => if c = "LONG" then 1 else if c = "SHORT" then 1 else 0)
      = ["PASSIVE", "LONG", "SHORT"] ∧
    ∀ rank : String → ℚ,
      (get_ordered_conditions rank).Pairwise (fun a b => rank a ≤ rank b) ∧
        (get_ordered_conditions rank).Perm conditions := by
  refine ⟨by decide, by decide, fun rank => ⟨?_, ?_⟩⟩
  · haveI htot : IsTotal String (fun a b => rank a ≤ rank b) :=
      ⟨fun a b => le_total (rank a) (rank b)⟩
    haveI htrans : IsTrans String (fun a b => rank a ≤ rank b) :=
      ⟨fun _ _ _ hab hbc => le_trans hab hbc⟩
    exact List.sorted_insertionSort (fun a b => rank a ≤ rank b) conditions
  · exact List.perm_insertionSort (fun a b => rank a ≤ rank b) conditions

/-! ## Event-line formatter: claim C9 -/

/-- Number of characters after the last `'.'` of a string (its decimal
places, when the string is a decimal numeral). -/
def fracDigits (s : String) : ℕ :=
  (s.data.reverse.takeWhile (fun c => c != '.')).length

def digitList : List Char := ['0', '1', '2', '3', '4', '5', '6', '7', '8', '9']

theorem digitChar_mem (d : ℕ) : digitChar d ∈ digitList := by
  match d with
  | 0 | 1 | 2 | 3 | 4 | 5 | 6 | 7 | 8 | 9 => simp [digitChar, digitList]
  | n + 10 => simp [digitChar, digitList]

theorem natStrAux_chars : ∀ (fuel m : ℕ), ∀ c ∈ natStrAux fuel m, c ∈ digitList := by
  intro fuel
  induction fuel with
  | zero => intro m c hc; simp [natStrAux] at hc
  | succ fuel ih =>
    intro m c hc
    rw [natStrAux] at hc
    split at hc
    · simp at hc
      rw [hc]
      exact digitChar_mem m
    · rcases List.mem_append.mp hc with h | h
      · exact ih _ c h
      · simp at h
        rw [h]
        exact digitChar_mem _

theorem natStr_chars (m : ℕ) : ∀ c ∈ natStr m, c ∈ digitList :=
  natStrAux_chars (m + 1) m

theorem padZeros_chars (k : ℕ) (s : List Char) (hs : ∀ c ∈ s, c ∈ digitList) :
    ∀ c ∈ padZeros k s, c ∈ digitList := by
  intro c hc
  rcases List.mem_append.mp hc with h | h
  · rw [List.eq_of_mem_replicate h]
    simp [digitList]
  · exact hs c h

theorem stripFracZeros_chars (s : List Char) (hs : ∀ c ∈ s, c ∈ digitList) :
    ∀ c ∈ stripFracZeros s, c ∈ digitList := by
  intro c hc
  rw [stripFracZeros] at hc
  split at hc
  · simp at hc
    rw [hc]
    simp [digitList]
  · have h1 : c ∈ s.reverse.dropWhile (fun ch => ch = '0') := by
      simpa using hc
    exact hs c (by
      have h2 := (List.dropWhile_sublist (l := s.reverse)
        (p := fun ch => ch = '0')).mem h1
      simpa using h2)

theorem padZeros_length (k : ℕ) (s : List Char) :
    (padZeros k s).length = max k s.length := by
  rw [padZeros]
  simp
  omega

theorem stripFracZeros_length_pos (s : List Char) : 1 ≤ (stripFracZeros s).length := by
  rw [stripFracZeros]
  split
  · simp
  · rename_i h
    rcases List.eq_nil_or_concat ((s.reverse.dropWhile (fun c => c = '0')).reverse) with
      h1 | ⟨l, a, h1⟩
    · rw [List.isEmpty_iff] at h
      exact absurd h1 h
    · rw [h1]
      simp

theorem stripFracZeros_length_le (s : List Char) :
    (stripFracZeros s).length ≤ max s.length 1 := by
  rw [stripFracZeros]
  split
  · simp
  · have : ((s.reverse.dropWhile (fun c => c = '0')).reverse).length ≤ s.length := by
      simpa using (List.dropWhile_sublist (l := s.reverse)
        (p := fun c => c = '0')).length_le
    omega

theorem natStrAux_length_le : ∀ (fuel k m : ℕ), 1 ≤ k → m < 10 ^ k →
    (natStrAux fuel m).length ≤ k := by
  intro fuel
  induction fuel with
  | zero => intro k m _ _; simp [natStrAux]
  | succ fuel ih =>
    intro k m hk hm
    rw [natStrAux]
    split
    · simpa using hk
    · rename_i hm10
      push_neg at hm10
      have hk2 : 2 ≤ k := by
        by_contra hcon
        push_neg at hcon
        interval_cases k
        · omega
      have hdiv : m / 10 < 10 ^ (k - 1) := by
        rw [Nat.div_lt_iff_lt_mul (by norm_num)]
        calc m < 10 ^ k := hm
          _ = 10 ^ (k - 1) * 10 := by
            rw [← pow_succ]
            congr 1
            omega
      have := ih (k - 1) (m / 10) (by omega) hdiv
      simp only [List.length_append, List.length_cons, List.length_nil]
      omega

theorem natStr_length_le (k m : ℕ) (hm : m < 10 ^ k) :
    (natStr m).length ≤ max k 1 := by
  rcases Nat.eq_zero_or_pos k with rfl | hk
  · have : m = 0 := by omega
    rw [this]
    simp [natStr, natStrAux]
  · have h := natStrAux_length_le (m + 1) k m hk hm
    rw [natStr]
    omega

theorem decExpAux_le {d : ℕ} : ∀ (fuel start j : ℕ), 10 ^ j % d = 0 → start ≤ j →
    j < start + fuel → ∃ k, decExpAux d fuel start = some k ∧ k ≤ j := by
  intro fuel
  induction fuel with
  | zero => intro start j _ _ h; omega
  | succ fuel ih =>
    intro start j hj hsj hlt
    rw [decExpAux]
    split
    · exact ⟨start, rfl, hsj⟩
    · rename_i hne
      have hne' : start ≠ j := fun h => hne (h ▸ hj)
      obtain ⟨k, hk, hkj⟩ := ih (start + 1) j hj (by omega) (by omega)
      exact ⟨k, hk, hkj⟩

/-- For a denominator dividing `10^4` the exponent search succeeds with an
exponent of at most 4. -/
theorem decExp_le_four {d : ℕ} (hd : 0 < d) (hdvd : d ∣ 10 ^ 4) :
    ∃ k, decExp d = some k ∧ k ≤ 4 := by
  rcases le_or_lt 4 d with h4 | h4
  · have hmod : 10 ^ 4 % d = 0 := Nat.mod_eq_zero_of_dvd hdvd
    exact decExpAux_le (d + 1) 0 4 hmod (by omega) (by omega)
  · interval_cases d
    · exact ⟨0, by decide, by omega⟩
    · exact ⟨1, by decide, by omega⟩
    · exact absurd hdvd (by decide)

theorem takeWhile_all_append {p : Char → Bool} :
    ∀ (l r : List Char), (∀ c ∈ l, p c = true) →
      (l ++ r).takeWhile p = l ++ r.takeWhile p
  | [], r, _ => by simp
  | a :: l, r, h => by
    rw [List.cons_append, List.takeWhile_cons, h a (by simp)]
    simp [takeWhile_all_append l r (fun c hc => h c (List.mem_cons_of_mem _ hc))]

/-- Decimal places of a numeral of the form `A.B` with `B` free of dots. -/
theorem fracDigits_shape (A B : List Char) (hB : ∀ c ∈ B, c ∈ digitList) :
    fracDigits ⟨A ++ '.' :: B⟩ = B.length := by
  rw [fracDigits]
  show ((A ++ '.' :: B).reverse.takeWhile (fun c => c != '.')).length = B.length
  rw [List.reverse_append, List.reverse_cons]
  rw [List.append_assoc]
  rw [takeWhile_all_append B.reverse (['.'] ++ A.reverse)
    (fun c hc => by
      have hc' := hB c (List.mem_reverse.mp hc)
      simp only [digitList, List.mem_cons, List.not_mem_nil, or_false] at hc'
      rcases hc' with h | h | h | h | h | h | h | h | h | h <;> rw [h] <;> rfl)]
  have : (['.'] ++ A.reverse).takeWhile (fun c => c != '.') = [] := by
    rw [List.singleton_append, List.takeWhile_cons]
    norm_num
  rw [this]
  simp

/-- Structure of the printed positive finite decimal: integer digits, one
dot, then 1–4 fractional digits when the denominator divides `10^4`. -/
theorem pyFloatStrPos_shape (q : ℚ) (hden : (q.den : ℕ) ∣ 10 ^ 4) :
    ∃ A B : List Char, pyFloatStrPos q = A ++ '.' :: B ∧
      (∀ c ∈ A, c ∈ digitList) ∧ (∀ c ∈ B, c ∈ digitList) ∧
      1 ≤ B.length ∧ B.length ≤ 4 := by
  obtain ⟨k, hk, hk4⟩ := decExp_le_four q.pos hden
  have heq0 : pyFloatStrPos q =
      (natStr (q.num.toNat * (10 ^ k / q.den) / 10 ^ k) ++ ['.']) ++
        stripFracZeros (padZeros k (natStr (q.num.toNat * (10 ^ k / q.den) % 10 ^ k))) := by
    rw [pyFloatStrPos, hk]
  have heq : pyFloatStrPos q =
      natStr (q.num.toNat * (10 ^ k / q.den) / 10 ^ k) ++ '.' ::
        stripFracZeros (padZeros k (natStr (q.num.toNat * (10 ^ k / q.den) % 10 ^ k))) := by
    rw [heq0, List.append_assoc]
    rfl
  refine ⟨_, _, heq, natStr_chars _,
    stripFracZeros_chars _ (padZeros_chars _ _ (natStr_chars _)),
    stripFracZeros_length_pos _, ?_⟩
  have hfp : q.num.toNat * (10 ^ k / q.den) % 10 ^ k < 10 ^ k :=
    Nat.mod_lt _ (Nat.pos_pow_of_pos k (by norm_num))
  have h1 := natStr_length_le k _ hfp
  have h2 := padZeros_length k (natStr (q.num.toNat * (10 ^ k / q.den) % 10 ^ k))
  have h3 := stripFracZeros_length_le
    (padZeros k (natStr (q.num.toNat * (10 ^ k / q.den) % 10 ^ k)))
  omega

/-- Decimal places printed for a value whose denominator divides `10^4`
(every `round(x, 4)` output is such a value): at least one and at most
four — not always exactly four, since `str` drops trailing zeros. -/
theorem fracDigits_pyFloatStr (q : ℚ) (hden : (q.den : ℕ) ∣ 10 ^ 4) :
    1 ≤ fracDigits (pyFloatStr q) ∧ fracDigits (pyFloatStr q) ≤ 4 := by
  rw [pyFloatStr]
  split
  · obtain ⟨A, B, hAB, hA, hB, h1, h4⟩ := pyFloatStrPos_shape (-q)
      (by rw [Rat.neg_den]; exact hden)
    rw [hAB]
    rw [show ('-' :: (A ++ '.' :: B)) = ('-' :: A) ++ '.' :: B from by simp]
    rw [fracDigits_shape _ _ hB]
    omega
  · obtain ⟨A, B, hAB, hA, hB, h1, h4⟩ := pyFloatStrPos_shape q hden
    rw [hAB]
    rw [fracDigits_shape _ _ hB]
    omega

theorem pyFloatStrPos_chars (q : ℚ) :
    ∀ c ∈ pyFloatStrPos q, c ∈ '.' :: '/' :: digitList := by
  cases hdec : decExp q.den with
  | some k =>
    have heq0 : pyFloatStrPos q =
        (natStr (q.num.toNat * (10 ^ k / q.den) / 10 ^ k) ++ ['.']) ++
          stripFracZeros (padZeros k
            (natStr (q.num.toNat * (10 ^ k / q.den) % 10 ^ k))) := by
      rw [pyFloatStrPos, hdec]
    rw [heq0]
    intro c hc
    rcases List.mem_append.mp hc with h | h
    · rcases List.mem_append.mp h with h1 | h1
      · exact List.mem_cons_of_mem _ (List.mem_cons_of_mem _ (natStr_chars _ c h1))
      · simp at h1
        rw [h1]
        simp
    · exact List.mem_cons_of_mem _ (List.mem_cons_of_mem _
        (stripFracZeros_chars _ (padZeros_chars _ _ (natStr_chars _)) c h))
  | none =>
    have heq0 : pyFloatStrPos q = (natStr q.num.toNat ++ ['/']) ++ natStr q.den := by
      rw [pyFloatStrPos, hdec]
    rw [heq0]
    intro c hc
    rcases List.mem_append.mp hc with h | h
    · rcases List.mem_append.mp h with h1 | h1
      · exact List.mem_cons_of_mem _ (List.mem_cons_of_mem _ (natStr_chars _ c h1))
      · simp at h1
        rw [h1]
        simp
    · exact List.mem_cons_of_mem _ (List.mem_cons_of_mem _ (natStr_chars _ c h))

theorem pyFloatStr_chars (q : ℚ) :
    ∀ c ∈ (pyFloatStr q).data, c ∈ '-' :: '.' :: '/' :: digitList := by
  rw [pyFloatStr]
  split
  · intro c hc
    rcases List.mem_cons.mp hc with rfl | h
    · simp
    · exact List.mem_cons_of_mem _ (pyFloatStrPos_chars (-q) c h)
  · intro c hc
    exact List.mem_cons_of_mem _ (pyFloatStrPos_chars q c hc)

theorem pyFloatStr_count_eq_zero (q : ℚ) (ch : Char)
    (hch : ch ∉ '-' :: '.' :: '/' :: digitList) : (pyFloatStr q).data.count ch = 0 :=
  List.count_eq_zero.mpr (fun h => hch (pyFloatStr_chars q ch h))

theorem eventLine_data (e : QEvent) :
    (eventLine e).data = e.condition.data ++ [';'] ++ (pyFloatStr e.onset).data
      ++ [';'] ++ (pyFloatStr e.duration).data ++ [';']
      ++ (pyFloatStr e.angle).data ++ ['\n'] := by
  rw [eventLine]
  simp [String.data_append]

/-- **C9 (counterexample)**: the line written for the EventRecord
`("LONG", 2.5, 0.0, 30.0)` is `"LONG;2.5;0.0;30.0\n"`; its onset field
`"2.5"` has one decimal place, not exactly four — `str(round(x, 4))` drops
trailing zeros. -/
theorem append_to_txt_counterexample :
    append_to_txt [⟨"LONG", mkRat 5 2, 0, 30⟩] = "LONG;2.5;0.0;30.0\n" ∧
      fracDigits (pyFloatStr (mkRat 5 2)) = 1 := by
  constructor
  · decide
  · decide

/-- **C9 (amended)**: per EventRecord the writer emits one line
`condition;str(onset);str(duration);str(angle)` terminated by a single
newline: when the condition label contains no `';'` or `'\n'`, the line
contains exactly three `';'` separators and exactly one `'\n'`; onset and
duration — `round(·, 4)` values, denominator dividing `10^4` — are printed
with at least one and at most four decimal places (trailing zeros dropped,
so not always exactly four); the angle is `str`'s shortest decimal form;
and each appended event extends the output by exactly its own line. -/
theorem append_to_txt_line_format (e : QEvent)
    (hc : ∀ ch ∈ e.condition.data, ch ≠ ';' ∧ ch ≠ '\n')
    (ho : (e.onset.den : ℕ) ∣ 10 ^ 4) (hd : (e.duration.den : ℕ) ∣ 10 ^ 4) :
    (eventLine e).data.count ';' = 3 ∧
    (eventLine e).data.count '\n' = 1 ∧
    (1 ≤ fracDigits (pyFloatStr e.onset) ∧ fracDigits (pyFloatStr e.onset) ≤ 4) ∧
    (1 ≤ fracDigits (pyFloatStr e.duration) ∧ fracDigits (pyFloatStr e.duration) ≤ 4) ∧
    ∀ (evs : List QEvent) (f : QEvent),
      append_to_txt (evs ++ [f]) = append_to_txt evs ++ eventLine f := by
  have hcs : e.condition.data.count ';' = 0 :=
    List.count_eq_zero.mpr (fun h => (hc ';' h).1 rfl)
  have hcn : e.condition.data.count '\n' = 0 :=
    List.count_eq_zero.mpr (fun h => (hc '\n' h).2 rfl)
  have hos := pyFloatStr_count_eq_zero e.onset ';' (by decide)
  have hds := pyFloatStr_count_eq_zero e.duration ';' (by decide)
  have has := pyFloatStr_count_eq_zero e.angle ';' (by decide)
  have hon := pyFloatStr_count_eq_zero e.onset '\n' (by decide)
  have hdn := pyFloatStr_count_eq_zero e.duration '\n' (by decide)
  have han := pyFloatStr_count_eq_zero e.angle '\n' (by decide)
  refine ⟨?_, ?_, fracDigits_pyFloatStr e.onset ho, fracDigits_pyFloatStr e.duration hd, ?_⟩
  · rw [eventLine_data]
    simp [List.count_append, hcs, hos, hds, has]
  · rw [eventLine_data]
    simp [List.count_append, hcn, hon, hdn, han]
  · intro evs f
    rw [append_to_txt, append_to_txt, List.foldl_append]
    rfl

theorem append_to_txt_line_format_witness :
    ((∀ ch ∈ ("SHORT" : String).data, ch ≠ ';' ∧ ch ≠ '\n') ∧
      ((mkRat 5 4).den : ℕ) ∣ 10 ^ 4 ∧ ((mkRat 3 2).den : ℕ) ∣ 10 ^ 4) ∧
    ((eventLine ⟨"SHORT", mkRat 5 4, mkRat 3 2, 30⟩).data.count ';' = 3 ∧
     (eventLine ⟨"SHORT", mkRat 5 4, mkRat 3 2, 30⟩).data.count '\n' = 1 ∧
     (1 ≤ fracDigits (pyFloatStr (⟨"SHORT", mkRat 5 4, mkRat 3 2, 30⟩ : QEvent).onset) ∧
        fracDigits (pyFloatStr (⟨"SHORT", mkRat 5 4, mkRat 3 2, 30⟩ : QEvent).onset) ≤ 4) ∧
     (1 ≤ fracDigits (pyFloatStr (⟨"SHORT", mkRat 5 4, mkRat 3 2, 30⟩ : QEvent).duration) ∧
        fracDigits (pyFloatStr (⟨"SHORT", mkRat 5 4, mkRat 3 2, 30⟩ : QEvent).duration) ≤ 4) ∧
     ∀ (evs : List QEvent) (f : QEvent),
       append_to_txt (evs ++ [f]) = append_to_txt evs ++ eventLine f) :=
  ⟨⟨by decide, by decide, by decide⟩,
    append_to_txt_line_format ⟨"SHORT", mkRat 5 4, mkRat 3 2, 30⟩
      (by decide) (by decide) (by decide)⟩

/-! ## No-overlap invariant of the segmenter: claim C7 -/

theorem headD_le_mem {l : List ℝ} (hp : l.Pairwise (· ≤ ·)) :
    ∀ x ∈ l, l.headD 0 ≤ x := by
  cases l with
  | nil => simp
  | cons a t =>
    intro x hx
    rcases List.mem_cons.mp hx with rfl | h
    · simp
    · simpa using (List.pairwise_cons.mp hp).1 x h

/-- The per-record invariant kept by the segmentation loop.  Consecutive
stored records satisfy `onset₂ ≥ onset₁ + duration₁ - 1/10^4` (the slack is
forced by rounding onset and duration separately) with strictly increasing
onsets; all stored durations are non-negative. -/
theorem segLoop_records_inv (condition : String) (n : ℕ) :
    ∀ (l : List ((ℝ × ℝ) × ℝ)) (i : ℕ) (st : SegSt),
      i + l.length = n →
      (l.map (fun y => y.1.1)).Pairwise (· ≤ ·) →
      (∀ y ∈ l, st.onset ≤ y.1.1) →
      (∀ ev ∈ st.container, 0 ≤ ev.duration) →
      st.container.Chain' (fun e₁ e₂ =>
        e₁.onset + e₁.duration - 1 / 10 ^ 4 ≤ e₂.onset ∧ e₁.onset < e₂.onset) →
      (st.container ≠ [] → ∃ o : ℝ,
        (st.container.getLastD ⟨condition, 0, 0, 0⟩).onset = round4 o ∧
        (st.container.getLastD ⟨condition, 0, 0, 0⟩).duration = round4 (st.onset - o) ∧
        o ≤ st.onset ∧ (l ≠ [] → o + 1 / 2 < st.onset)) →
      (∀ ev ∈ (segLoop condition n i l st).container, 0 ≤ ev.duration) ∧
      (segLoop condition n i l st).container.Chain' (fun e₁ e₂ =>
        e₁.onset + e₁.duration - 1 / 10 ^ 4 ≤ e₂.onset ∧ e₁.onset < e₂.onset) := by
  intro l
  induction l with
  | nil =>
    intro i st _ _ _ hdur hchain _
    rw [segLoop_nil]
    exact ⟨hdur, hchain⟩
  | cons x rest ih =>
    intro i st hn hpair hbound hdur hchain hlink
    obtain ⟨⟨time, angle⟩, dAngle⟩ := x
    have htime_le : st.onset ≤ time := hbound (((time, angle), dAngle)) (by simp)
    have hrest_pair : (rest.map (fun y => y.1.1)).Pairwise (· ≤ ·) :=
      (List.pairwise_cons.mp (by simpa using hpair)).2
    have htime_rest : ∀ y ∈ rest, time ≤ y.1.1 := by
      intro y hy
      exact (List.pairwise_cons.mp (by simpa using hpair)).1 y.1.1
        (List.mem_map_of_mem (fun z => z.1.1) hy)
    rw [segLoop_cons]
    by_cases hc : (THRESHOLD_SPEED < |dAngle| ∧ THRESHOLD_DURATION < time - st.onset
        ∧ st.atZero) ∨ i = n - 1
    · rw [if_pos hc]
      apply ih (i + 1) _ (by simp at hn ⊢; omega) hrest_pair htime_rest
      · -- durations, with the new record appended
        intro ev hev
        rcases List.mem_append.mp hev with h | h
        · exact hdur ev h
        · simp at h
          rw [h]
          exact round4_nonneg (by linarith)
      · -- the chain, extended by the new record
        rw [List.chain'_append]
        refine ⟨hchain, by simp, ?_⟩
        intro e₁ he₁ e₂ he₂
        simp at he₂
        subst he₂
        have hcne : st.container ≠ [] := by
          intro hnil
          rw [hnil] at he₁
          simp at he₁
        obtain ⟨o, ho1, ho2, ho3, ho4⟩ := hlink hcne
        have he₁' : e₁ = st.container.getLastD ⟨condition, 0, 0, 0⟩ := by
          rw [List.getLastD_eq_getLast?, he₁]
          rfl
        have hgap : o + 1 / 2 < st.onset := ho4 (by simp)
        constructor
        · rw [he₁', ho1, ho2]
          have := round4_add_le o (st.onset - o)
          rw [show o + (st.onset - o) = st.onset from by ring] at this
          simpa using this
        · rw [he₁', ho1]
          exact round4_lt_of_gap hgap
      · -- the link for the freshly appended record
        intro _
        refine ⟨st.onset, ?_, ?_, htime_le, ?_⟩
        · rw [getLastD_concat]
        · rw [getLastD_concat]
        · intro hrest_ne
          rcases hc with ⟨-, hdur2, -⟩ | hlast
          · rw [THRESHOLD_DURATION] at hdur2
            linarith
          · exfalso
            simp at hn
            have : rest.length = 0 := by omega
            exact hrest_ne (List.length_eq_zero.mp this)
    · rw [if_neg hc]
      apply ih (i + 1) _ (by simp at hn ⊢; omega) hrest_pair
      · exact fun y hy => hbound y (List.mem_cons_of_mem _ hy)
      · exact hdur
      · exact hchain
      · intro hcne
        obtain ⟨o, ho1, ho2, ho3, ho4⟩ := hlink hcne
        exact ⟨o, ho1, ho2, ho3, fun _ => ho4 (by simp)⟩

/-- **C7 (amended)**: on non-decreasing times (length ≥ 2, matching angles)
every stored duration is non-negative, stored onsets are strictly
increasing, and consecutive records satisfy
`onset₂ ≥ onset₁ + duration₁ - 1/10^4` as stored.  The unrounded values
satisfy the exact identity (the next raw onset is the time at which the
previous record closed), but because onset and duration are rounded to 4
decimals separately, the stored inequality can miss by one unit in the
fourth decimal place — see the counterexample for the claim's exact
`onset₂ ≥ onset₁ + duration₁` version. -/
theorem data_to_event_no_overlap (times angles : List ℝ) (condition : String)
    (h2 : 2 ≤ times.length) (hlen : angles.length = times.length)
    (hmono : times.Chain' (· ≤ ·)) :
    ∃ evs : List Event, data_to_event times angles condition = .ok evs ∧
      (∀ ev ∈ evs, 0 ≤ ev.duration) ∧
      evs.Chain' (fun e₁ e₂ =>
        e₁.onset + e₁.duration - 1 / 10 ^ 4 ≤ e₂.onset ∧ e₁.onset < e₂.onset) ∧
      (evs.map (fun ev => ev.onset)).Pairwise (· < ·) := by
  have hrl : (rateSeries times angles).length = times.length := by
    rw [rateSeries_length, hlen]
  have hmt : ((times.zip angles).zip (rateSeries times angles)).map
      (fun y => y.1.1) = times := zip3_map_time _ _ _ hlen hrl
  have hll : ((times.zip angles).zip (rateSeries times angles)).length
      = times.length := zip3_length _ _ _ hlen hrl
  have hpairs : times.Pairwise (· ≤ ·) := List.chain'_iff_pairwise.mp hmono
  rw [data_to_event_ok times angles condition (by omega) hlen.symm]
  have key := segLoop_records_inv condition times.length
    ((times.zip angles).zip (rateSeries times angles)) 0
    { container := [], onset := times.headD 0, prevAngle := angles.headD 0,
      atZero := |(rateSeries times angles).headD 0| < THRESHOLD_SPEED }
    (by rw [hll]; omega)
    (by rw [hmt]; exact hpairs)
    (by
      intro y hy
      have hmem : y.1.1 ∈ times := by
        rw [← hmt]
        exact List.mem_map_of_mem (fun z => z.1.1) hy
      exact headD_le_mem hpairs y.1.1 hmem)
    (by simp)
    (by simp)
    (by simp)
  refine ⟨_, rfl, key.1, key.2, ?_⟩
  have hchain2 : ((segLoop condition times.length 0
      ((times.zip angles).zip (rateSeries times angles))
      { container := [], onset := times.headD 0, prevAngle := angles.headD 0,
        atZero := |(rateSeries times angles).headD 0|
          < THRESHOLD_SPEED }).container.map (fun ev => ev.onset)).Chain' (· < ·) := by
    rw [List.chain'_map]
    exact key.2.imp (fun a b hab => hab.2)
  exact List.chain'_iff_pairwise.mp hchain2

theorem data_to_event_no_overlap_witness :
    (2 ≤ ([(0:ℝ), 2, 4]).length ∧ ([(3:ℝ), 3, 3]).length = ([(0:ℝ), 2, 4]).length ∧
      List.Chain' (· ≤ ·) [(0:ℝ), 2, 4]) ∧
    ∃ evs : List Event, data_to_event [(0:ℝ), 2, 4] [(3:ℝ), 3, 3] "PASSIVE" = .ok evs ∧
      (∀ ev ∈ evs, 0 ≤ ev.duration) ∧
      evs.Chain' (fun e₁ e₂ =>
        e₁.onset + e₁.duration - 1 / 10 ^ 4 ≤ e₂.onset ∧ e₁.onset < e₂.onset) ∧
      (evs.map (fun ev => ev.onset)).Pairwise (· < ·) := by
  have hmono : List.Chain' (· ≤ ·) [(0:ℝ), 2, 4] := by
    norm_num [List.chain'_cons]
  exact ⟨⟨by norm_num, by norm_num, hmono⟩,
    data_to_event_no_overlap [(0:ℝ), 2, 4] [(3:ℝ), 3, 3] "PASSIVE"
      (by norm_num) (by norm_num) hmono⟩

theorem gaussNorm_pos : 0 < gaussNorm := by
  rw [gaussNorm]
  exact Finset.sum_pos (fun k _ => Real.exp_pos _)
    ⟨0, Finset.mem_Icc.mpr (by norm_num)⟩

theorem gaussNorm_le : gaussNorm ≤ 17 := by
  rw [gaussNorm]
  calc ∑ j ∈ Finset.Icc (-8 : ℤ) 8, Real.exp (-(j : ℝ) ^ 2 / 8)
      ≤ ∑ j ∈ Finset.Icc (-8 : ℤ) 8, (1 : ℝ) := by
        refine Finset.sum_le_sum (fun k _ => ?_)
        rw [Real.exp_le_one_iff]
        nlinarith [sq_nonneg ((k : ℝ))]
    _ = 17 := by
        rw [Finset.sum_const, Int.card_Icc]
        simp

theorem exp_eight_lt : Real.exp 8 < 6561 := by
  have h1 : Real.exp 8 = Real.exp 1 ^ 8 := by
    rw [← Real.exp_nat_mul]
    norm_num
  have h2 : Real.exp 1 < 3 := lt_trans Real.exp_one_lt_d9 (by norm_num)
  calc Real.exp 8 = Real.exp 1 ^ 8 := h1
    _ < 3 ^ 8 := by
        exact pow_lt_pow_left h2 (le_of_lt (Real.exp_pos 1)) (by norm_num)
    _ = 6561 := by norm_num

/-- The outermost kernel weight is still large enough that a gradient spike
of `10^7` eight samples ahead pushes the smoothed rate past the threshold. -/
theorem gaussWeight_eight_big : 10 < gaussWeight 8 * 10 ^ 7 := by
  rw [gaussWeight]
  have hexp : (-((8:ℤ) : ℝ) ^ 2 / 8) = (-8 : ℝ) := by norm_num
  rw [hexp]
  have h1 : (1 : ℝ) / 6561 < Real.exp (-8) := by
    rw [Real.exp_neg, inv_eq_one_div]
    rw [div_lt_div_iff (by norm_num) (Real.exp_pos 8)]
    nlinarith [exp_eight_lt]
  have h2 : Real.exp (-8) / 17 ≤ Real.exp (-8) / gaussNorm :=
    div_le_div_of_nonneg_left (le_of_lt (Real.exp_pos _)) gaussNorm_pos gaussNorm_le
  have h4 : (1 : ℝ) / 6561 / 17 < Real.exp (-8) / 17 := by linarith
  have h3 : (10 : ℝ) < 1 / 6561 / 17 * 10 ^ 7 := by norm_num
  have h5 := mul_lt_mul_of_pos_right h4 (show (0:ℝ) < 10 ^ 7 by norm_num)
  have h6 := mul_le_mul_of_nonneg_right h2 (show (0:ℝ) ≤ 10 ^ 7 by norm_num)
  linarith

theorem gaussWeight_eight_pos : 0 < gaussWeight 8 :=
  div_pos (Real.exp_pos _) gaussNorm_pos

/-- Times of the rounding counterexample: `0.0001501` and `0.6003002` are
chosen so that both the first onset and the first duration round *up* at
the fourth decimal while their sum is exactly on the grid. -/
noncomputable def cexTimes : List ℝ :=
  [1501/10^7, 6003002/10^7, 13/20, 7/10, 3/4, 4/5, 17/20, 9/10, 19/20, 1, 21/20]

/-- Angles of the rounding counterexample: flat except a `10^6` jump at the
last sample, which puts a gradient spike of `10^7` at index 9 — exactly
eight samples after index 1, so the index-1 smoothed rate is
`gaussWeight 8 * 10^7 > 10` while every earlier smoothed rate is exactly 0. -/
noncomputable def cexAngles : List ℝ :=
  [0, 0, 0, 0, 0, 0, 0, 0, 0, 0, 10^6]

/-- Gradient of the counterexample signal. -/
noncomputable def cexG : List ℝ :=
  [0, 0, 0, 0, 0, 0, 0, 0, 0, 10^7, 2 * 10^7]

theorem range_eleven : List.range 11 = [0, 1, 2, 3, 4, 5, 6, 7, 8, 9, 10] := by decide

theorem cex_abs : cexAngles.map (fun a => |a|) = cexAngles := by
  rw [cexAngles]
  norm_num

theorem cex_grad : npGradientRaw cexAngles cexTimes = cexG := by
  rw [npGradientRaw, show cexAngles.length = 11 from rfl, range_eleven]
  simp only [List.map_cons, List.map_nil]
  rw [cexG]
  norm_num [gradAt, cexAngles, cexTimes, List.getD]

theorem cexG_getD_small (m : ℕ) (hm : m < 9) : cexG.getD m 0 = 0 := by
  interval_cases m <;> rfl

theorem reflect_small (k : ℤ) (h1 : -8 ≤ k) (h2 : k ≤ 8) : reflectIdx 11 k < 9 := by
  interval_cases k <;> decide

theorem cex_filter :
    ∃ d2 d3 d4 d5 d6 d7 d8 d9 d10 : ℝ,
      gaussianFilter cexG =
        [0, gaussWeight 8 * 10 ^ 7, d2, d3, d4, d5, d6, d7, d8, d9, d10] := by
  rw [gaussianFilter, show cexG.length = 11 from rfl, range_eleven]
  simp only [List.map_cons, List.map_nil]
  have h0 : ∑ k ∈ Finset.Icc (-8 : ℤ) 8,
      gaussWeight k * cexG.getD (reflectIdx 11 (((0 : ℕ) : ℤ) + k)) 0 = 0 := by
    apply Finset.sum_eq_zero
    intro k hk
    rw [Finset.mem_Icc] at hk
    have h9 : reflectIdx 11 (((0 : ℕ) : ℤ) + k) < 9 := by
      have he : ((0 : ℕ) : ℤ) + k = k := by push_cast; ring
      rw [he]
      exact reflect_small k hk.1 hk.2
    rw [cexG_getD_small _ h9, mul_zero]
  have h1 : ∑ k ∈ Finset.Icc (-8 : ℤ) 8,
      gaussWeight k * cexG.getD (reflectIdx 11 (((1 : ℕ) : ℤ) + k)) 0 =
        gaussWeight 8 * 10 ^ 7 := by
    rw [Finset.sum_eq_single_of_mem (8 : ℤ) (by decide)]
    · rw [show reflectIdx 11 (((1 : ℕ) : ℤ) + 8) = 9 from rfl]
      rfl
    · intro b hb hb8
      rw [Finset.mem_Icc] at hb
      have h9 : reflectIdx 11 (((1 : ℕ) : ℤ) + b) < 9 := by
        have he : ((1 : ℕ) : ℤ) + b = 1 + b := by push_cast; ring
        rw [he]
        exact reflect_small (1 + b) (by omega) (by omega)
      rw [cexG_getD_small _ h9, mul_zero]
  rw [h0, h1]
  exact ⟨_, _, _, _, _, _, _, _, _, rfl⟩

theorem cex_rate :
    ∃ d2 d3 d4 d5 d6 d7 d8 d9 d10 : ℝ,
      rateSeries cexTimes cexAngles =
        [0, gaussWeight 8 * 10 ^ 7, d2, d3, d4, d5, d6, d7, d8, d9, d10] := by
  obtain ⟨d2, d3, d4, d5, d6, d7, d8, d9, d10, h⟩ := cex_filter
  exact ⟨d2, d3, d4, d5, d6, d7, d8, d9, d10, by rw [rateSeries, cex_abs, cex_grad, h]⟩

/-- A run of iterations in which every remaining duration stays at or below
the threshold and the final index is never reached leaves `container` and
`onset` untouched; only `prev_angle` and `at_zero` advance. -/
theorem segLoop_skip (condition : String) (n : ℕ) :
    ∀ (l rest : List ((ℝ × ℝ) × ℝ)) (i : ℕ) (st : SegSt),
      (∀ p ∈ l, ¬ THRESHOLD_DURATION < p.1.1 - st.onset) →
      (∀ j, j < l.length → i + j ≠ n - 1) →
      ∃ az : Prop,
        segLoop condition n i (l ++ rest) st =
          segLoop condition n (i + l.length) rest
            { container := st.container, onset := st.onset,
              prevAngle := (l.map (fun p => p.1.2)).getLastD st.prevAngle,
              atZero := az } := by
  intro l
  induction l with
  | nil =>
    intro rest i st _ _
    exact ⟨st.atZero, by simp⟩
  | cons p l ih =>
    obtain ⟨⟨t, a⟩, d⟩ := p
    intro rest i st hdur hidx
    rw [List.cons_append, segLoop_cons, if_neg]
    · have hdur' : ∀ q ∈ l,
          ¬ THRESHOLD_DURATION < q.1.1 -
            (SegSt.mk st.container st.onset a (|d| < THRESHOLD_SPEED)).onset := by
        intro q hq
        exact hdur q (List.mem_cons_of_mem _ hq)
      have hidx' : ∀ j, j < l.length → (i + 1) + j ≠ n - 1 := by
        intro j hj
        have := hidx (j + 1) (by simp; omega)
        omega
      obtain ⟨az, haz⟩ := ih rest (i + 1)
        (SegSt.mk st.container st.onset a (|d| < THRESHOLD_SPEED)) hdur' hidx'
      refine ⟨az, ?_⟩
      rw [haz]
      simp only [List.map_cons, List.getLastD_cons, List.length_cons]
      have : i + (l.length + 1) = i + 1 + l.length := by omega
      rw [this]
    · rintro (⟨-, hd, -⟩ | h)
      · exact hdur (((t, a), d)) (List.mem_cons_self _ _) hd
      · exact hidx 0 (by simp) (by omega)

theorem cex_round_onset0 : round4 (1501 / 10 ^ 7 : ℝ) = 2 / 10 ^ 4 := by
  rw [round4, round_eq]
  norm_num

theorem cex_round_dur0 :
    round4 ((6003002 / 10 ^ 7 : ℝ) - 1501 / 10 ^ 7) = 6002 / 10 ^ 4 := by
  rw [round4, round_eq]
  norm_num

theorem cex_round_onset1 : round4 (6003002 / 10 ^ 7 : ℝ) = 6003 / 10 ^ 4 := by
  rw [round4, round_eq]
  norm_num

theorem cex_round_dur1 :
    round4 ((21 / 20 : ℝ) - 6003002 / 10 ^ 7) = 4497 / 10 ^ 4 := by
  rw [round4, round_eq]
  norm_num

theorem cex_events :
    data_to_event cexTimes cexAngles "LONG" =
      .ok [⟨"LONG", 2 / 10 ^ 4, 6002 / 10 ^ 4, 0⟩,
           ⟨"LONG", 6003 / 10 ^ 4, 4497 / 10 ^ 4, 0⟩] := by
  obtain ⟨d2, d3, d4, d5, d6, d7, d8, d9, d10, hrate⟩ := cex_rate
  rw [data_to_event_ok cexTimes cexAngles "LONG"
    (by rw [show cexAngles.length = 11 from rfl]; omega) rfl]
  rw [hrate, show cexTimes.length = 11 from rfl]
  simp only [cexTimes, cexAngles, List.zip_cons_cons, List.zip_nil_right,
    List.headD_cons]
  rw [segLoop_cons, if_neg (by
    rintro (⟨h1, -, -⟩ | h)
    · norm_num [THRESHOLD_SPEED] at h1
    · omega)]
  dsimp only
  rw [segLoop_cons, if_pos (Or.inl ⟨by
      rw [abs_of_pos (mul_pos gaussWeight_eight_pos (by norm_num : (0:ℝ) < 10 ^ 7)),
        THRESHOLD_SPEED]
      exact gaussWeight_eight_big,
    by rw [THRESHOLD_DURATION]; norm_num,
    by rw [THRESHOLD_SPEED]; norm_num⟩)]
  dsimp only [List.nil_append]
  rw [show ([((13/20, (0:ℝ)), d2), ((7/10, 0), d3), ((3/4, 0), d4), ((4/5, 0), d5),
        ((17/20, 0), d6), ((9/10, 0), d7), ((19/20, 0), d8), ((1, 0), d9),
        ((21/20, 10^6), d10)] : List ((ℝ × ℝ) × ℝ)) =
      [((13/20, (0:ℝ)), d2), ((7/10, 0), d3), ((3/4, 0), d4), ((4/5, 0), d5),
        ((17/20, 0), d6), ((9/10, 0), d7), ((19/20, 0), d8), ((1, 0), d9)] ++
      [((21/20, 10^6), d10)] from rfl]
  obtain ⟨az, haz⟩ := segLoop_skip "LONG" 11
    [((13/20, (0:ℝ)), d2), ((7/10, 0), d3), ((3/4, 0), d4), ((4/5, 0), d5),
      ((17/20, 0), d6), ((9/10, 0), d7), ((19/20, 0), d8), ((1, 0), d9)]
    [((21/20, 10^6), d10)] 2
    (SegSt.mk [⟨"LONG", round4 (1501 / 10 ^ 7),
        round4 (6003002 / 10 ^ 7 - 1501 / 10 ^ 7), 0⟩]
      (6003002 / 10 ^ 7) 0 (|gaussWeight 8 * 10 ^ 7| < THRESHOLD_SPEED))
    (by intro p hp; fin_cases hp <;> norm_num [THRESHOLD_DURATION])
    (by intro j hj; norm_num at hj; omega)
  rw [haz]
  dsimp only [List.map_cons, List.map_nil, List.getLastD_cons, List.getLastD_nil,
    List.length_cons, List.length_nil]
  rw [segLoop_cons, if_pos (Or.inr rfl)]
  rw [segLoop_nil]
  dsimp only
  rw [cex_round_onset0, cex_round_dur0, cex_round_onset1, cex_round_dur1]
  simp [List.getLastD_cons]

/-- C7 (counterexample): the stored inequality `onset[i+1] >= onset[i] +
duration[i]` fails for strictly increasing times.  On `cexTimes`/`cexAngles`
the segmenter returns two records; onset and duration are rounded
independently, `0.0001501 ↦ 0.0002` and `0.6001501 ↦ 0.6002` both round up,
and their sum `0.6004` exceeds the second stored onset `0.6003`. -/
theorem data_to_event_rounding_counterexample :
    List.Chain' (· < ·) cexTimes ∧
    cexTimes.length = cexAngles.length ∧
    ∃ e₀ e₁ : Event,
      data_to_event cexTimes cexAngles "LONG" = .ok [e₀, e₁] ∧
      e₁.onset < e₀.onset + e₀.duration := by
  refine ⟨?_, rfl, ⟨_, _, cex_events, ?_⟩⟩
  · rw [cexTimes]
    norm_num [List.chain'_cons, List.chain'_singleton]
  · norm_num
